import Mathlib

/-!
Verification of the Unified-AI-Council core against its specification.

The TypeScript sources are shallowly embedded as executable Lean
definitions: strings are Lean `String`s (sequences of `Char`s, i.e.
Unicode code points), JavaScript regular-expression tests are replaced by
explicit character-level scanners with the same semantics, promises that
settle are represented by an explicit `Outcome` sum, and the orchestration
of `runCouncil` is represented by a pure function over an environment
record providing the values with which every external collaborator call
settles.
-/

namespace UAC

/-- The JavaScript `\s` character class (also used by `String.prototype.trim`
and friends): ASCII whitespace, NBSP, BOM, and the Unicode space
separators. -/
def jsSpace (c : Char) : Bool :=
  let v := c.toNat
  v = 32 || v = 9 || v = 10 || v = 13 || v = 11 || v = 12 ||
  v = 0xa0 || v = 0x1680 || (0x2000 ≤ v && v ≤ 0x200a) ||
  v = 0x2028 || v = 0x2029 || v = 0x202f ||
  v = 0x205f || v = 0x3000 || v = 0xfeff

/-- Drop trailing characters satisfying `p` (JS `trimEnd` with `p = jsSpace`). -/
def rstrip (p : Char → Bool) (l : List Char) : List Char :=
  (l.reverse.dropWhile p).reverse

/-- JS `String.prototype.trim` on a character list. -/
def trimList (l : List Char) : List Char :=
  rstrip jsSpace (l.dropWhile jsSpace)

/-- JS `String.prototype.trim`. -/
def jsTrim (s : String) : String :=
  ⟨trimList s.data⟩

/-- `cmd.replace(/\r\n|\r/g, '\n')`: normalize CR and CRLF to LF. -/
def normNewlines : List Char → List Char
  | [] => []
  | '\r' :: '\n' :: rest => '\n' :: normNewlines rest
  | '\r' :: rest => '\n' :: normNewlines rest
  | c :: rest => c :: normNewlines rest

/-- JS `String.prototype.split(sep)` for a single-character separator. -/
def splitOnCh (sep : Char) : List Char → List (List Char)
  | [] => [[]]
  | c :: rest =>
    if c = sep then [] :: splitOnCh sep rest
    else
      match splitOnCh sep rest with
      | [] => [[c]]
      | l :: ls => (c :: l) :: ls

/-- `.replace(/\s+/g, ' ')`: collapse every maximal whitespace run to a
single blank.  The flag records whether we are inside a whitespace run. -/
def collapseGo : Bool → List Char → List Char
  | _, [] => []
  | inRun, c :: rest =>
    if jsSpace c then
      if inRun then collapseGo true rest
      else ' ' :: collapseGo true rest
    else c :: collapseGo false rest

/-- The pipeline of `normalizeWhitespace` from
`src/security/commandValidation.ts` on a character list: normalize CR/CRLF
to LF, split on LF, trim each line, drop empty lines, join with a blank,
collapse whitespace runs, trim. -/
def listNormalize (l : List Char) : List Char :=
  let lines := ((splitOnCh '\n' (normNewlines l)).map trimList).filter
    (fun x => !x.isEmpty)
  trimList (collapseGo false (List.intercalate [' '] lines))

/-- `normalizeWhitespace` from `src/security/commandValidation.ts`. -/
def normalizeWhitespace (cmd : String) : String :=
  ⟨listNormalize cmd.data⟩

/-- The forbidden shell metacharacters: semicolon, ampersand, pipe,
backtick (96), angle brackets. -/
def forbiddenChar (c : Char) : Bool :=
  c = ';' || c = '&' || c = '|' || c.toNat = 96 || c = '<' || c = '>'

/-- JS `\w`: ASCII letters, digits and underscore. -/
def isWordChar (c : Char) : Bool :=
  let v := c.toNat
  (97 ≤ v && v ≤ 122) || (65 ≤ v && v ≤ 90) || (48 ≤ v && v ≤ 57) || v = 95

/-- A character that may directly follow `$` to form the forbidden
`$-expansion` pattern: `(` (40), `{` (123), or a word character. -/
def dollarTrigger (c : Char) : Bool :=
  c.toNat = 40 || c.toNat = 123 || isWordChar c

/-- The test for a dollar immediately followed by `(`, `{`, or a word
character (the `$`-expansion / substitution guard). -/
def hasDollarExpansion : List Char → Bool
  | [] => false
  | a :: rest =>
    if a = '$' then
      (match rest with
       | c :: _ => dollarTrigger c
       | [] => false) || hasDollarExpansion rest
    else hasDollarExpansion rest

/-- The test for an adjacent `&&` or `||` pair (explicit chaining guard). -/
def hasChainSeq : List Char → Bool
  | [] => false
  | [_] => false
  | a :: b :: rest =>
    (a = '&' && b = '&') || (a = '|' && b = '|') || hasChainSeq (b :: rest)

/-- The first maximal run of non-whitespace characters. -/
def firstTokList (l : List Char) : List Char :=
  (l.dropWhile jsSpace).takeWhile (fun c => !jsSpace c)

/-- `firstToken`: `cmd.trim().match(/^(\S+)/)` — the first maximal run of
non-whitespace characters, `none` when there is none. -/
def firstTok (l : List Char) : Option (List Char) :=
  let t := firstTokList l
  if t.isEmpty then none else some t

/-- The character class allowed in the executable token: ASCII letters,
digits, dot, underscore, slash, hyphen. -/
def isExeChar (c : Char) : Bool :=
  ('a' ≤ c && c ≤ 'z') || ('A' ≤ c && c ≤ 'Z') || ('0' ≤ c && c ≤ '9') ||
  c = '.' || c = '_' || c = '/' || c = '-'

/-- `DEFAULT_ALLOWED_EXECUTABLES`. -/
def allowedExecutables : List (List Char) :=
  ["codex".data, "claude".data, "gemini".data]

/-- `exe.split('/').pop() ?? exe`: the basename of the executable token. -/
def exeBasename (exe : List Char) : List Char :=
  (splitOnCh '/' exe).getLastD exe

/-- `CommandValidationResult` from `src/security/commandValidation.ts`. -/
structure CommandValidationResult where
  ok : Bool
  normalized : Option String
  reason : Option String
  deriving Repr, DecidableEq

/-- `validateCliCommand` from `src/security/commandValidation.ts`. -/
def validateCliCommand (cmd : String) : CommandValidationResult :=
  let normalized := normalizeWhitespace cmd
  if normalized.data.isEmpty then
    ⟨false, none, some "Empty command."⟩
  else if cmd.data.any (fun c => c = '\r' || c = '\n') then
    ⟨false, none, some "Newlines are not allowed in CLI command."⟩
  else if normalized.data.any forbiddenChar then
    ⟨false, none, some "Command contains forbidden shell metacharacters."⟩
  else if hasDollarExpansion normalized.data then
    ⟨false, none, some "Command contains forbidden $-expansion or substitution."⟩
  else if hasChainSeq normalized.data then
    ⟨false, none, some "Command chaining is not allowed."⟩
  else if normalized.data.count '\'' % 2 ≠ 0 ∨ normalized.data.count '"' % 2 ≠ 0 then
    ⟨false, none, some "Unbalanced quotes in command."⟩
  else
    match firstTok normalized.data with
    | none => ⟨false, none, some "Unable to parse executable."⟩
    | some exe =>
      if !(allowedExecutables.contains (exeBasename exe)) then
        ⟨false, none, some "Executable must be one of: codex, claude, gemini"⟩
      else if !(!exe.isEmpty && exe.all isExeChar) then
        ⟨false, none, some "Executable contains invalid characters."⟩
      else
        ⟨true, some normalized, none⟩

example : (validateCliCommand "codex").ok = true := by decide
example : (validateCliCommand "claude --project myproj").ok = true := by decide
example : validateCliCommand "claude --project myproj" =
    ⟨true, some "claude --project myproj", none⟩ := by decide
example : (validateCliCommand "codex; rm -rf /").ok = false := by decide
example : (validateCliCommand "gemini $(oops)").ok = false := by decide
example : (validateCliCommand "codex 'a").ok = false := by decide
example : (validateCliCommand "  codex\t --x  ").normalized = some "codex --x" := by decide
example : (validateCliCommand "/usr/bin/codex --flag").ok = true := by decide
example : (validateCliCommand "bash").ok = false := by decide
example : (validateCliCommand "").ok = false := by decide

/-! ### Facts about the whitespace classes -/

theorem jsSpace_eq_false_of_forbidden {c : Char} (h : forbiddenChar c = true) :
    jsSpace c = false := by
  simp only [forbiddenChar, Bool.or_eq_true] at h
  rcases h with ((((h | h) | h) | h) | h) | h
  all_goals first
    | (simp only [decide_eq_true_eq] at h; subst h; decide)
    | (simp only [jsSpace, decide_eq_true_eq] at h ⊢
       simp only [Bool.or_eq_false_iff, decide_eq_false_iff_not, Bool.and_eq_false_iff,
         decide_eq_false_iff_not]
       omega)

theorem jsSpace_eq_false_of_trigger {c : Char} (h : dollarTrigger c = true) :
    jsSpace c = false := by
  simp only [dollarTrigger, isWordChar, Bool.or_eq_true, Bool.and_eq_true,
    decide_eq_true_eq] at h
  simp only [jsSpace, Bool.or_eq_false_iff, decide_eq_false_iff_not, Bool.and_eq_false_iff,
    decide_eq_false_iff_not]
  omega

theorem trigger_eq_false_of_jsSpace {c : Char} (h : jsSpace c = true) :
    dollarTrigger c = false := by
  cases ht : dollarTrigger c
  · rfl
  · rw [jsSpace_eq_false_of_trigger ht] at h; cases h

theorem ne_dollar_of_jsSpace {c : Char} (h : jsSpace c = true) : c ≠ '$' := by
  intro he; subst he; simp [jsSpace] at h

/-! ### The non-whitespace content is preserved by normalization -/

theorem filter_nonspace_dropWhile (l : List Char) :
    (l.dropWhile jsSpace).filter (fun c => !jsSpace c) =
      l.filter (fun c => !jsSpace c) := by
  induction l with
  | nil => rfl
  | cons c rest ih =>
    by_cases hc : jsSpace c = true
    · simp [List.dropWhile_cons, hc, ih]
    · simp [List.dropWhile_cons, hc]

theorem filter_nonspace_rstrip (l : List Char) :
    (rstrip jsSpace l).filter (fun c => !jsSpace c) =
      l.filter (fun c => !jsSpace c) := by
  unfold rstrip
  rw [List.filter_reverse, filter_nonspace_dropWhile, List.filter_reverse,
    List.reverse_reverse]

theorem filter_nonspace_trim (l : List Char) :
    (trimList l).filter (fun c => !jsSpace c) = l.filter (fun c => !jsSpace c) := by
  unfold trimList
  rw [filter_nonspace_rstrip, filter_nonspace_dropWhile]

theorem filter_nonspace_collapseGo (l : List Char) :
    ∀ b, (collapseGo b l).filter (fun c => !jsSpace c) =
      l.filter (fun c => !jsSpace c) := by
  induction l with
  | nil => intro b; rfl
  | cons c rest ih =>
    intro b
    by_cases hc : jsSpace c = true
    · cases b <;> simp [collapseGo, hc, ih, show jsSpace ' ' = true from by decide]
    · simp [collapseGo, hc, ih]

/-- Non-whitespace content survives the trim/collapse/trim core of
`normalizeWhitespace` unchanged. -/
theorem filter_nonspace_core (x : List Char) :
    (trimList (collapseGo false (trimList x))).filter (fun c => !jsSpace c) =
      x.filter (fun c => !jsSpace c) := by
  rw [filter_nonspace_trim, filter_nonspace_collapseGo, filter_nonspace_trim]

theorem mem_core_iff_of_nonspace {x : List Char} {c : Char} (hc : jsSpace c = false) :
    c ∈ trimList (collapseGo false (trimList x)) ↔ c ∈ x := by
  have h1 := filter_nonspace_core x
  constructor
  · intro h
    have : c ∈ (trimList (collapseGo false (trimList x))).filter
        (fun d => !jsSpace d) := List.mem_filter.mpr ⟨h, by simp [hc]⟩
    rw [h1] at this
    exact (List.mem_filter.mp this).1
  · intro h
    have : c ∈ x.filter (fun d => !jsSpace d) :=
      List.mem_filter.mpr ⟨h, by simp [hc]⟩
    rw [← h1] at this
    exact (List.mem_filter.mp this).1

theorem count_filter_nonspace {c : Char} (hc : jsSpace c = false) (l : List Char) :
    (l.filter (fun d => !jsSpace d)).count c = l.count c := by
  induction l with
  | nil => rfl
  | cons d rest ih =>
    by_cases hd : jsSpace d = true
    · have hne : ¬ c = d := by
        intro he; rw [he, hd] at hc; cases hc
      have hne' : ¬ d = c := fun he => hne he.symm
      simp [List.filter_cons, hd, List.count_cons, hne, hne', ih]
    · simp [List.filter_cons, hd, List.count_cons, ih]

theorem count_core_of_nonspace {c : Char} (hc : jsSpace c = false) (x : List Char) :
    (trimList (collapseGo false (trimList x))).count c = x.count c := by
  rw [← count_filter_nonspace hc, filter_nonspace_core, count_filter_nonspace hc]

/-! ### The `$`-expansion pattern is preserved by normalization -/

theorem hasDollar_cons_of_ne {a : Char} (rest : List Char) (ha : a ≠ '$') :
    hasDollarExpansion (a :: rest) = hasDollarExpansion rest := by
  simp [hasDollarExpansion, ha]

theorem hasDollar_dropWhile (l : List Char) :
    hasDollarExpansion (l.dropWhile jsSpace) = hasDollarExpansion l := by
  induction l with
  | nil => rfl
  | cons c rest ih =>
    by_cases hc : jsSpace c = true
    · rw [List.dropWhile_cons_of_pos hc, ih, hasDollar_cons_of_ne rest
        (ne_dollar_of_jsSpace hc)]
    · rw [List.dropWhile_cons_of_neg (by simp [hc])]

theorem hasDollar_allSpace {l : List Char} (h : ∀ c ∈ l, jsSpace c = true) :
    hasDollarExpansion l = false := by
  induction l with
  | nil => rfl
  | cons c rest ih =>
    rw [hasDollar_cons_of_ne rest (ne_dollar_of_jsSpace (h c (by simp)))]
    exact ih fun d hd => h d (by simp [hd])

theorem hasDollar_append_spaces (m : List Char) {s : List Char}
    (hs : ∀ c ∈ s, jsSpace c = true) :
    hasDollarExpansion (m ++ s) = hasDollarExpansion m := by
  induction m with
  | nil => simpa using hasDollar_allSpace hs
  | cons a m' ih =>
    by_cases ha : a = '$'
    · subst ha
      cases m' with
      | nil =>
        cases s with
        | nil => rfl
        | cons d s' =>
          have hd := hs d (List.mem_cons_self d s')
          have hall : ∀ c ∈ s', jsSpace c = true :=
            fun c hc => hs c (List.mem_cons_of_mem d hc)
          show hasDollarExpansion ('$' :: d :: s') = hasDollarExpansion ['$']
          rw [show hasDollarExpansion ('$' :: d :: s') =
              (dollarTrigger d || hasDollarExpansion (d :: s')) from by
            simp [hasDollarExpansion]]
          rw [trigger_eq_false_of_jsSpace hd,
            hasDollar_cons_of_ne s' (ne_dollar_of_jsSpace hd),
            hasDollar_allSpace hall]
          rfl
      | cons b m'' =>
        show hasDollarExpansion ('$' :: b :: (m'' ++ s)) =
          hasDollarExpansion ('$' :: b :: m'')
        rw [show hasDollarExpansion ('$' :: b :: (m'' ++ s)) =
            (dollarTrigger b || hasDollarExpansion (b :: (m'' ++ s))) from by
          simp [hasDollarExpansion]]
        rw [show hasDollarExpansion ('$' :: b :: m'') =
            (dollarTrigger b || hasDollarExpansion (b :: m'')) from by
          simp [hasDollarExpansion]]
        rw [show (b : Char) :: (m'' ++ s) = (b :: m'') ++ s from rfl, ih]
    · rw [List.cons_append, hasDollar_cons_of_ne _ ha, hasDollar_cons_of_ne _ ha, ih]

theorem hasDollar_rstrip (l : List Char) :
    hasDollarExpansion (rstrip jsSpace l) = hasDollarExpansion l := by
  have hs : ∀ c ∈ (l.reverse.takeWhile jsSpace).reverse, jsSpace c = true := by
    intro c hc
    exact List.mem_takeWhile_imp (List.mem_reverse.mp hc)
  have hdecomp : rstrip jsSpace l ++ (l.reverse.takeWhile jsSpace).reverse = l := by
    unfold rstrip
    rw [← List.reverse_append, List.takeWhile_append_dropWhile, List.reverse_reverse]
  rw [← hasDollar_append_spaces (rstrip jsSpace l) hs, hdecomp]

theorem hasDollar_trim (l : List Char) :
    hasDollarExpansion (trimList l) = hasDollarExpansion l := by
  unfold trimList
  rw [hasDollar_rstrip, hasDollar_dropWhile]

/-- The head-trigger of the `$`-expansion scanner: whether the next
character would complete a `$`-expansion. -/
def headTrigger : List Char → Bool
  | [] => false
  | c :: _ => dollarTrigger c

theorem hasDollar_cons_dollar (x : List Char) :
    hasDollarExpansion ('$' :: x) = (headTrigger x || hasDollarExpansion x) := by
  cases x <;> simp [hasDollarExpansion, headTrigger]

theorem headTrigger_collapse (x : List Char) :
    headTrigger (collapseGo false x) = headTrigger x := by
  cases x with
  | nil => rfl
  | cons d r =>
    by_cases hd : jsSpace d = true
    · rw [show collapseGo false (d :: r) = ' ' :: collapseGo true r from by
        simp [collapseGo, hd]]
      rw [show headTrigger (' ' :: collapseGo true r) = dollarTrigger ' ' from rfl,
        show headTrigger (d :: r) = dollarTrigger d from rfl,
        trigger_eq_false_of_jsSpace hd]
      decide
    · rw [show collapseGo false (d :: r) = d :: collapseGo false r from by
        simp [collapseGo, hd]]
      rfl

theorem hasDollar_collapseGo (l : List Char) :
    ∀ b, hasDollarExpansion (collapseGo b l) = hasDollarExpansion l := by
  induction l with
  | nil => intro b; rfl
  | cons c rest ih =>
    intro b
    by_cases hc : jsSpace c = true
    · have hnd := ne_dollar_of_jsSpace hc
      have hblank : (' ' : Char) ≠ '$' := by decide
      cases b with
      | true =>
        rw [show collapseGo true (c :: rest) = collapseGo true rest from by
          simp [collapseGo, hc]]
        rw [ih true, hasDollar_cons_of_ne rest hnd]
      | false =>
        rw [show collapseGo false (c :: rest) = ' ' :: collapseGo true rest from by
          simp [collapseGo, hc]]
        rw [hasDollar_cons_of_ne _ hblank, ih true, hasDollar_cons_of_ne rest hnd]
    · have h1 : collapseGo b (c :: rest) = c :: collapseGo false rest := by
        cases b <;> simp [collapseGo, hc]
      by_cases hd : c = '$'
      · subst hd
        rw [h1, hasDollar_cons_dollar, hasDollar_cons_dollar,
          headTrigger_collapse, ih false]
      · rw [h1, hasDollar_cons_of_ne _ hd, ih false, hasDollar_cons_of_ne rest hd]

/-! ### Shape of the normalized string when the input has no newlines -/

theorem normNewlines_eq_self {x : List Char} (h : ∀ c ∈ x, c ≠ '\r') :
    normNewlines x = x := by
  induction x using normNewlines.induct with
  | case1 => rfl
  | case2 rest => exact absurd rfl (h '\r' (by simp))
  | case3 rest _ _ => exact absurd rfl (h '\r' (by simp))
  | case4 c rest h1 h2 ih =>
    rw [normNewlines]
    · rw [ih fun d hd => h d (List.mem_cons_of_mem c hd)]
    · exact h1
    · exact h2

theorem splitOnCh_eq_self {sep : Char} {x : List Char} (h : ∀ c ∈ x, c ≠ sep) :
    splitOnCh sep x = [x] := by
  induction x with
  | nil => rfl
  | cons c rest ih =>
    have hc : c ≠ sep := h c (List.mem_cons_self c rest)
    simp [splitOnCh, hc, ih fun d hd => h d (List.mem_cons_of_mem c hd)]

theorem intercalate_single (sep : List Char) (a : List Char) :
    List.intercalate sep [a] = a := by
  simp [List.intercalate]

theorem listNormalize_no_newline {x : List Char}
    (h : ∀ c ∈ x, c ≠ '\r' ∧ c ≠ '\n') :
    listNormalize x = trimList (collapseGo false (trimList x)) := by
  unfold listNormalize
  rw [normNewlines_eq_self (fun c hc => (h c hc).1),
    splitOnCh_eq_self (fun c hc => (h c hc).2)]
  by_cases he : (trimList x).isEmpty = true
  · simp only [List.map_cons, List.map_nil, List.isEmpty_iff.mp he]
    simp [List.intercalate]
  · simp only [List.map_cons, List.map_nil, List.filter_cons, he]
    simp [intercalate_single]

theorem chain_mem_forbidden {l : List Char} (h : hasChainSeq l = true) :
    ∃ c ∈ l, forbiddenChar c = true := by
  induction l with
  | nil => simp [hasChainSeq] at h
  | cons a rest ih =>
    cases rest with
    | nil => simp [hasChainSeq] at h
    | cons b r =>
      rw [hasChainSeq] at h
      simp only [Bool.or_eq_true, Bool.and_eq_true, decide_eq_true_eq] at h
      rcases h with (⟨ha, _⟩ | ⟨ha, _⟩) | h2
      · subst ha; exact ⟨_, List.mem_cons_self _ _, by decide⟩
      · subst ha; exact ⟨_, List.mem_cons_self _ _, by decide⟩
      · obtain ⟨c, hc, hf⟩ := ih h2
        exact ⟨c, List.mem_cons_of_mem a hc, hf⟩

/-! ### Claim C1 -/

/-- The C1 badness condition on the raw input string: it contains a
forbidden shell metacharacter, a `$`-expansion pattern (a dollar followed
by `(`, `{` or a word character), a `&&`/`||` chain, or an odd number of
single or double quotes. -/
def c1Bad (s : String) : Prop :=
  (∃ c ∈ s.data, forbiddenChar c = true) ∨
  hasDollarExpansion s.data = true ∨
  hasChainSeq s.data = true ∨
  s.data.count '\'' % 2 = 1 ∨
  s.data.count '"' % 2 = 1

theorem reason_nonempty_of_not_ok (s : String) :
    (validateCliCommand s).ok = false →
    ∃ r, (validateCliCommand s).reason = some r ∧ r ≠ "" := by
  intro h
  simp only [validateCliCommand] at h ⊢
  by_cases h0 : (normalizeWhitespace s).data.isEmpty = true
  · rw [if_pos h0]; exact ⟨_, rfl, by decide⟩
  rw [if_neg h0] at h ⊢
  by_cases h1 : (s.data.any fun c => c = '\r' || c = '\n') = true
  · rw [if_pos h1]; exact ⟨_, rfl, by decide⟩
  rw [if_neg h1] at h ⊢
  by_cases h2 : (normalizeWhitespace s).data.any forbiddenChar = true
  · rw [if_pos h2]; exact ⟨_, rfl, by decide⟩
  rw [if_neg h2] at h ⊢
  by_cases h3 : hasDollarExpansion (normalizeWhitespace s).data = true
  · rw [if_pos h3]; exact ⟨_, rfl, by decide⟩
  rw [if_neg h3] at h ⊢
  by_cases h4 : hasChainSeq (normalizeWhitespace s).data = true
  · rw [if_pos h4]; exact ⟨_, rfl, by decide⟩
  rw [if_neg h4] at h ⊢
  by_cases h5 : (normalizeWhitespace s).data.count '\'' % 2 ≠ 0 ∨
      (normalizeWhitespace s).data.count '"' % 2 ≠ 0
  · rw [if_pos h5]; exact ⟨_, rfl, by decide⟩
  rw [if_neg h5] at h ⊢
  cases hft : firstTok (normalizeWhitespace s).data with
  | none => exact ⟨_, rfl, by decide⟩
  | some exe =>
    rw [hft] at h
    dsimp only at h ⊢
    by_cases ha : (!(allowedExecutables.contains (exeBasename exe))) = true
    · rw [if_pos ha]; exact ⟨_, rfl, by decide⟩
    rw [if_neg ha] at h ⊢
    by_cases hb : (!(!exe.isEmpty && exe.all isExeChar)) = true
    · rw [if_pos hb]; exact ⟨_, rfl, by decide⟩
    rw [if_neg hb] at h
    simp at h

theorem validateCliCommand_not_ok_of_bad {s : String} (hbad : c1Bad s) :
    (validateCliCommand s).ok = false := by
  cases hok : (validateCliCommand s).ok with
  | false => rfl
  | true =>
  exfalso
  simp only [validateCliCommand] at hok
  by_cases h0 : (normalizeWhitespace s).data.isEmpty = true
  · rw [if_pos h0] at hok; exact absurd hok (by decide)
  rw [if_neg h0] at hok
  by_cases h1 : s.data.any (fun c => c = '\r' || c = '\n') = true
  · rw [if_pos h1] at hok; exact absurd hok (by decide)
  rw [if_neg h1] at hok
  by_cases h2 : (normalizeWhitespace s).data.any forbiddenChar = true
  · rw [if_pos h2] at hok; exact absurd hok (by decide)
  rw [if_neg h2] at hok
  by_cases h3 : hasDollarExpansion (normalizeWhitespace s).data = true
  · rw [if_pos h3] at hok; exact absurd hok (by decide)
  rw [if_neg h3] at hok
  by_cases h4 : hasChainSeq (normalizeWhitespace s).data = true
  · rw [if_pos h4] at hok; exact absurd hok (by decide)
  rw [if_neg h4] at hok
  by_cases h5 : (normalizeWhitespace s).data.count '\'' % 2 ≠ 0 ∨
      (normalizeWhitespace s).data.count '"' % 2 ≠ 0
  · rw [if_pos h5] at hok; exact absurd hok (by decide)
  -- All guards passed; now contradict `hbad`.
  have hnl : ∀ c ∈ s.data, c ≠ '\r' ∧ c ≠ '\n' := by
    intro c hc
    simp only [List.any_eq_true, Bool.or_eq_true, decide_eq_true_eq, not_exists] at h1
    constructor
    · intro he; exact h1 c ⟨hc, Or.inl he⟩
    · intro he; exact h1 c ⟨hc, Or.inr he⟩
  have hN : (normalizeWhitespace s).data = trimList (collapseGo false (trimList s.data)) := by
    show (String.mk (listNormalize s.data)).data = _
    simpa using listNormalize_no_newline hnl
  have hforb : ¬ ∃ c ∈ s.data, forbiddenChar c = true := by
    rintro ⟨c, hcmem, hcf⟩
    apply h2
    rw [List.any_eq_true]
    refine ⟨c, ?_, hcf⟩
    rw [hN]
    exact (mem_core_iff_of_nonspace (jsSpace_eq_false_of_forbidden hcf)).mpr hcmem
  rcases hbad with hb | hb | hb | hb | hb
  · exact hforb hb
  · apply h3
    rw [hN, hasDollar_trim, hasDollar_collapseGo, hasDollar_trim]
    exact hb
  · exact hforb (chain_mem_forbidden hb)
  · apply h5
    left
    rw [hN, count_core_of_nonspace (by decide) s.data, hb]
    decide
  · apply h5
    right
    rw [hN, count_core_of_nonspace (by decide) s.data, hb]
    decide

/-- **C1.** Any input containing a forbidden shell metacharacter
(`; & | backtick < >`), a `$(`/`${`/`$word` expansion, a `&&`/`||` chain,
or an odd number of single or double quotes is rejected by
`validateCliCommand` with `ok = false` and a non-empty reason — even when
the leading token is an allow-listed executable.  (Totality — "never
throws" — holds by construction: `validateCliCommand` is a total Lean
function.) -/
theorem validateCliCommand_rejects_unsafe {s : String} (h : c1Bad s) :
    (validateCliCommand s).ok = false ∧
      ∃ r, (validateCliCommand s).reason = some r ∧ r ≠ "" := by
  have hok := validateCliCommand_not_ok_of_bad h
  exact ⟨hok, reason_nonempty_of_not_ok s hok⟩

/-- Witness for C1 at the concrete input `"codex; rm -rf /"` (an
allow-listed leading executable followed by a chained command). -/
theorem validateCliCommand_rejects_unsafe_witness :
    c1Bad "codex; rm -rf /" ∧
      ((validateCliCommand "codex; rm -rf /").ok = false ∧
        ∃ r, (validateCliCommand "codex; rm -rf /").reason = some r ∧ r ≠ "") :=
  have hb : c1Bad "codex; rm -rf /" := by unfold c1Bad; decide
  ⟨hb, validateCliCommand_rejects_unsafe hb⟩

/-! ### The first token is preserved by normalization -/

theorem dropWhile_allspace {s : List Char} (hs : ∀ c ∈ s, jsSpace c = true) :
    s.dropWhile jsSpace = [] := by
  induction s with
  | nil => rfl
  | cons d s' ih =>
    rw [List.dropWhile_cons_of_pos (hs d (List.mem_cons_self d s'))]
    exact ih fun c hc => hs c (List.mem_cons_of_mem d hc)

theorem takeWhile_nonspace_append_spaces (a : List Char) {s : List Char}
    (hs : ∀ c ∈ s, jsSpace c = true) :
    (a ++ s).takeWhile (fun c => !jsSpace c) = a.takeWhile (fun c => !jsSpace c) := by
  induction a with
  | nil =>
    simp only [List.nil_append, List.takeWhile_nil]
    cases s with
    | nil => rfl
    | cons d s' =>
      rw [List.takeWhile_cons_of_neg]
      simp [hs d (List.mem_cons_self d s')]
  | cons c a' ih =>
    by_cases hc : jsSpace c = true
    · rw [List.cons_append, List.takeWhile_cons_of_neg (by simp [hc]),
        List.takeWhile_cons_of_neg (by simp [hc])]
    · rw [List.cons_append, List.takeWhile_cons_of_pos (by simp [hc]),
        List.takeWhile_cons_of_pos (by simp [hc]), ih]

theorem firstTokList_append_spaces (a : List Char) {s : List Char}
    (hs : ∀ c ∈ s, jsSpace c = true) :
    firstTokList (a ++ s) = firstTokList a := by
  induction a with
  | nil =>
    show firstTokList ([] ++ s) = firstTokList []
    rw [List.nil_append]
    unfold firstTokList
    rw [dropWhile_allspace hs]
    rfl
  | cons c a' ih =>
    unfold firstTokList at ih ⊢
    by_cases hc : jsSpace c = true
    · rw [List.cons_append, List.dropWhile_cons_of_pos hc,
        List.dropWhile_cons_of_pos hc]
      exact ih
    · have hc' : ¬ jsSpace c = true := hc
      rw [List.cons_append, List.dropWhile_cons_of_neg hc',
        List.dropWhile_cons_of_neg hc',
        List.takeWhile_cons_of_pos (by simp [hc]),
        List.takeWhile_cons_of_pos (by simp [hc]),
        takeWhile_nonspace_append_spaces a' hs]

theorem dropWhile_idem_js (l : List Char) :
    (l.dropWhile jsSpace).dropWhile jsSpace = l.dropWhile jsSpace := by
  induction l with
  | nil => rfl
  | cons c rest ih =>
    by_cases hc : jsSpace c = true
    · rw [List.dropWhile_cons_of_pos hc]; exact ih
    · rw [List.dropWhile_cons_of_neg hc, List.dropWhile_cons_of_neg hc]

theorem firstTokList_dropWhile (l : List Char) :
    firstTokList (l.dropWhile jsSpace) = firstTokList l := by
  unfold firstTokList
  rw [dropWhile_idem_js]

theorem rstrip_decomp (p : Char → Bool) (l : List Char) :
    rstrip p l ++ (l.reverse.takeWhile p).reverse = l := by
  unfold rstrip
  rw [← List.reverse_append, List.takeWhile_append_dropWhile, List.reverse_reverse]

theorem rstrip_suffix_spaces (l : List Char) :
    ∀ c ∈ (l.reverse.takeWhile jsSpace).reverse, jsSpace c = true :=
  fun _ hc => List.mem_takeWhile_imp (List.mem_reverse.mp hc)

theorem firstTokList_rstrip (l : List Char) :
    firstTokList (rstrip jsSpace l) = firstTokList l := by
  conv_rhs => rw [← rstrip_decomp jsSpace l]
  rw [firstTokList_append_spaces _ (rstrip_suffix_spaces l)]

theorem firstTokList_trim (l : List Char) :
    firstTokList (trimList l) = firstTokList l := by
  unfold trimList
  rw [firstTokList_rstrip, firstTokList_dropWhile]

theorem takeWhile_nonspace_collapse (x : List Char) :
    (collapseGo false x).takeWhile (fun c => !jsSpace c) =
      x.takeWhile (fun c => !jsSpace c) := by
  induction x with
  | nil => rfl
  | cons d rest ih =>
    by_cases hd : jsSpace d = true
    · rw [show collapseGo false (d :: rest) = ' ' :: collapseGo true rest from by
        simp [collapseGo, hd]]
      rw [List.takeWhile_cons_of_neg (by simp [show jsSpace ' ' = true from by decide]),
        List.takeWhile_cons_of_neg (by simp [hd])]
    · rw [show collapseGo false (d :: rest) = d :: collapseGo false rest from by
        simp [collapseGo, hd]]
      rw [List.takeWhile_cons_of_pos (by simp [hd]),
        List.takeWhile_cons_of_pos (by simp [hd]), ih]

theorem firstTokList_collapseGo (x : List Char) :
    ∀ b, firstTokList (collapseGo b x) = firstTokList x := by
  induction x with
  | nil => intro b; rfl
  | cons d rest ih =>
    intro b
    by_cases hd : jsSpace d = true
    · have hstep : firstTokList (d :: rest) = firstTokList rest := by
        unfold firstTokList
        rw [List.dropWhile_cons_of_pos hd]
      cases b with
      | true =>
        rw [show collapseGo true (d :: rest) = collapseGo true rest from by
          simp [collapseGo, hd]]
        rw [ih true, hstep]
      | false =>
        rw [show collapseGo false (d :: rest) = ' ' :: collapseGo true rest from by
          simp [collapseGo, hd]]
        have : firstTokList (' ' :: collapseGo true rest) =
            firstTokList (collapseGo true rest) := by
          unfold firstTokList
          rw [List.dropWhile_cons_of_pos (by decide)]
        rw [this, ih true, hstep]
    · rw [show collapseGo b (d :: rest) = d :: collapseGo false rest from by
        cases b <;> simp [collapseGo, hd]]
      unfold firstTokList
      rw [List.dropWhile_cons_of_neg hd, List.dropWhile_cons_of_neg hd,
        List.takeWhile_cons_of_pos (by simp [hd]),
        List.takeWhile_cons_of_pos (by simp [hd]),
        takeWhile_nonspace_collapse]

theorem firstTokList_core (x : List Char) :
    firstTokList (trimList (collapseGo false (trimList x))) = firstTokList x := by
  rw [firstTokList_trim, firstTokList_collapseGo, firstTokList_trim]

/-! ### The normalized string is in whitespace normal form -/

/-- No two adjacent whitespace characters. -/
def noTwoSpaces : List Char → Bool
  | [] => true
  | [_] => true
  | a :: b :: rest => !(jsSpace a && jsSpace b) && noTwoSpaces (b :: rest)

/-- Whitespace normal form: every whitespace character is a blank, no two
adjacent blanks, and no leading or trailing whitespace.  This is what
"collapses newlines/tabs to single spaces; trims" amounts to. -/
def wsNormalForm (l : List Char) : Prop :=
  (∀ c ∈ l, jsSpace c = true → c = ' ') ∧
  noTwoSpaces l = true ∧
  (∀ c, l.head? = some c → jsSpace c = false) ∧
  (∀ c, l.getLast? = some c → jsSpace c = false)

theorem noTwoSpaces_cons {c : Char} {t : List Char}
    (h : noTwoSpaces (c :: t) = true) : noTwoSpaces t = true := by
  cases t with
  | nil => rfl
  | cons d r =>
    rw [noTwoSpaces, Bool.and_eq_true] at h
    exact h.2

theorem noTwo_append_left : ∀ (a b : List Char),
    noTwoSpaces (a ++ b) = true → noTwoSpaces a = true := by
  intro a
  induction a with
  | nil => intro b _; rfl
  | cons c a' ih =>
    intro b h
    cases a' with
    | nil => rfl
    | cons d a'' =>
      rw [List.cons_append] at h
      rw [show ((d :: a'') : List Char) ++ b = d :: (a'' ++ b) from rfl] at h
      rw [noTwoSpaces, Bool.and_eq_true] at h
      rw [noTwoSpaces, Bool.and_eq_true]
      exact ⟨h.1, ih b h.2⟩

theorem noTwo_dropWhile {l : List Char} (h : noTwoSpaces l = true) :
    noTwoSpaces (l.dropWhile jsSpace) = true := by
  induction l with
  | nil => rfl
  | cons c rest ih =>
    by_cases hc : jsSpace c = true
    · rw [List.dropWhile_cons_of_pos hc]
      exact ih (noTwoSpaces_cons h)
    · rw [List.dropWhile_cons_of_neg hc]
      exact h

theorem noTwo_rstrip {l : List Char} (h : noTwoSpaces l = true) :
    noTwoSpaces (rstrip jsSpace l) = true := by
  rw [← rstrip_decomp jsSpace l] at h
  exact noTwo_append_left _ _ h

theorem collapse_spaces_blank : ∀ (x : List Char) (b : Bool) (c : Char),
    c ∈ collapseGo b x → jsSpace c = true → c = ' ' := by
  intro x
  induction x with
  | nil => intro b c hc; cases hc
  | cons d rest ih =>
    intro b c hc hsp
    by_cases hd : jsSpace d = true
    · cases b with
      | true =>
        rw [show collapseGo true (d :: rest) = collapseGo true rest from by
          simp [collapseGo, hd]] at hc
        exact ih true c hc hsp
      | false =>
        rw [show collapseGo false (d :: rest) = ' ' :: collapseGo true rest from by
          simp [collapseGo, hd]] at hc
        rcases List.mem_cons.mp hc with h | h
        · exact h
        · exact ih true c h hsp
    · rw [show collapseGo b (d :: rest) = d :: collapseGo false rest from by
        cases b <;> simp [collapseGo, hd]] at hc
      rcases List.mem_cons.mp hc with h | h
      · exfalso; rw [h] at hsp; exact hd hsp
      · exact ih false c h hsp

theorem collapse_noTwo : ∀ (x : List Char),
    noTwoSpaces (collapseGo false x) = true ∧
    noTwoSpaces (collapseGo true x) = true ∧
    (∀ c, (collapseGo true x).head? = some c → jsSpace c = false) := by
  intro x
  induction x with
  | nil => refine ⟨rfl, rfl, ?_⟩; intro c h; cases h
  | cons d rest ih =>
    obtain ⟨ihf, iht, ihh⟩ := ih
    by_cases hd : jsSpace d = true
    · have e1 : collapseGo false (d :: rest) = ' ' :: collapseGo true rest := by
        simp [collapseGo, hd]
      have e2 : collapseGo true (d :: rest) = collapseGo true rest := by
        simp [collapseGo, hd]
      refine ⟨?_, by rw [e2]; exact iht, by rw [e2]; exact ihh⟩
      rw [e1]
      cases he : collapseGo true rest with
      | nil => rfl
      | cons e es =>
        rw [noTwoSpaces, Bool.and_eq_true]
        refine ⟨?_, by rw [← he]; exact iht⟩
        have hes : jsSpace e = false := by
          apply ihh
          rw [he]; rfl
        simp [hes]
    · have hdf : jsSpace d = false := by
        cases hb : jsSpace d
        · rfl
        · exact absurd hb hd
      have e3 : ∀ b, collapseGo b (d :: rest) = d :: collapseGo false rest := by
        intro b; cases b <;> simp [collapseGo, hd]
      have hmain : noTwoSpaces (d :: collapseGo false rest) = true := by
        cases he : collapseGo false rest with
        | nil => rfl
        | cons e es =>
          rw [noTwoSpaces, Bool.and_eq_true]
          exact ⟨by simp [hdf], by rw [← he]; exact ihf⟩
      refine ⟨by rw [e3]; exact hmain, by rw [e3]; exact hmain, ?_⟩
      intro c h
      rw [e3 true] at h
      cases h
      exact hdf

theorem head_dropWhile_nonspace (l : List Char) :
    ∀ c, (l.dropWhile jsSpace).head? = some c → jsSpace c = false := by
  induction l with
  | nil => intro c h; cases h
  | cons d rest ih =>
    intro c h
    by_cases hd : jsSpace d = true
    · rw [List.dropWhile_cons_of_pos hd] at h
      exact ih c h
    · rw [List.dropWhile_cons_of_neg hd] at h
      cases h
      cases hb : jsSpace d
      · rfl
      · exact absurd hb hd

theorem mem_trim_subset {l : List Char} {c : Char} (h : c ∈ trimList l) : c ∈ l := by
  unfold trimList at h
  have h1 : c ∈ l.dropWhile jsSpace := by
    rw [← rstrip_decomp jsSpace (l.dropWhile jsSpace)]
    exact List.mem_append_left _ h
  rw [← List.takeWhile_append_dropWhile (p := jsSpace) (l := l)]
  exact List.mem_append_right _ h1

theorem wsNormalForm_core (y : List Char) :
    wsNormalForm (trimList (collapseGo false y)) := by
  obtain ⟨hf, _, _⟩ := collapse_noTwo y
  refine ⟨?_, ?_, ?_, ?_⟩
  · intro c hc hsp
    exact collapse_spaces_blank y false c (mem_trim_subset hc) hsp
  · exact noTwo_rstrip (noTwo_dropWhile hf)
  · intro c h
    unfold trimList at h
    cases hr : rstrip jsSpace ((collapseGo false y).dropWhile jsSpace) with
    | nil => rw [hr] at h; cases h
    | cons e w =>
      rw [hr] at h
      cases h
      apply head_dropWhile_nonspace (collapseGo false y) c
      have hd := rstrip_decomp jsSpace ((collapseGo false y).dropWhile jsSpace)
      rw [hr] at hd
      rw [← hd]
      rfl
  · intro c h
    unfold trimList rstrip at h
    rw [List.getLast?_reverse] at h
    exact head_dropWhile_nonspace _ c h

/-! ### Claim C7 -/

/-- **C7 counterexample.**  `"codex\n--flag"` has the allow-listed first
token `codex`, uses only allowed executable characters, and contains none
of the forbidden characters, no `$`-expansion and no unbalanced quotes —
yet `validateCliCommand` rejects it: the raw-newline guard
(`commandValidation.ts:48`) fires before normalization would have
collapsed the newline to a blank.  So acceptance as claimed fails on
newline-containing commands. -/
theorem validateCliCommand_newline_rejected :
    (allowedExecutables.contains
        (exeBasename (firstTokList "codex\n--flag".data)) = true ∧
      (firstTokList "codex\n--flag".data).all isExeChar = true ∧
      (∀ c ∈ "codex\n--flag".data, forbiddenChar c = false) ∧
      hasDollarExpansion "codex\n--flag".data = false ∧
      "codex\n--flag".data.count '\'' % 2 = 0 ∧
      "codex\n--flag".data.count '"' % 2 = 0) ∧
    validateCliCommand "codex\n--flag" =
      ⟨false, none, some "Newlines are not allowed in CLI command."⟩ := by
  decide

/-- **C7 (amended).** Any command string free of newlines, forbidden shell
metacharacters, `$`-expansions and unbalanced quotes, whose first
whitespace-delimited token has an allow-listed basename (possibly with a
path prefix) and uses only the allowed executable characters, is accepted:
`validateCliCommand` returns `ok = true` with the whitespace-normalized
string, no reason, the non-whitespace content untouched (no rewriting
beyond whitespace normalization), and the result in whitespace normal
form (whitespace runs collapsed to single blanks, ends trimmed).  The
no-newline hypothesis is forced by the counterexample above: the
validator rejects any raw input containing CR or LF. -/
theorem validateCliCommand_accepts_safe (s : String)
    (hnl : ∀ c ∈ s.data, c ≠ '\r' ∧ c ≠ '\n')
    (hforb : ∀ c ∈ s.data, forbiddenChar c = false)
    (hdollar : hasDollarExpansion s.data = false)
    (hq1 : s.data.count '\'' % 2 = 0) (hq2 : s.data.count '"' % 2 = 0)
    (hexe : allowedExecutables.contains (exeBasename (firstTokList s.data)) = true)
    (hchars : (firstTokList s.data).all isExeChar = true) :
    validateCliCommand s = ⟨true, some (normalizeWhitespace s), none⟩ ∧
    (normalizeWhitespace s).data.filter (fun c => !jsSpace c) =
      s.data.filter (fun c => !jsSpace c) ∧
    wsNormalForm (normalizeWhitespace s).data := by
  have hN : (normalizeWhitespace s).data =
      trimList (collapseGo false (trimList s.data)) := by
    show (String.mk (listNormalize s.data)).data = _
    simpa using listNormalize_no_newline hnl
  have hTok : firstTokList (normalizeWhitespace s).data = firstTokList s.data := by
    rw [hN, firstTokList_core]
  have hTokNe : firstTokList s.data ≠ [] := by
    intro he
    rw [he] at hexe
    simp [exeBasename, splitOnCh, allowedExecutables] at hexe
  have h0 : ¬ (normalizeWhitespace s).data.isEmpty = true := by
    intro he
    rw [List.isEmpty_iff] at he
    rw [he] at hTok
    exact hTokNe (by rw [← hTok]; rfl)
  have h1 : ¬ (s.data.any fun c => c = '\r' || c = '\n') = true := by
    intro ha
    rw [List.any_eq_true] at ha
    obtain ⟨c, hc, hcc⟩ := ha
    rcases Bool.or_eq_true _ _ ▸ hcc with h | h
    · exact (hnl c hc).1 (by simpa using h)
    · exact (hnl c hc).2 (by simpa using h)
  have h2 : ¬ (normalizeWhitespace s).data.any forbiddenChar = true := by
    intro ha
    rw [List.any_eq_true] at ha
    obtain ⟨c, hc, hcf⟩ := ha
    rw [hN] at hc
    have : c ∈ s.data :=
      (mem_core_iff_of_nonspace (jsSpace_eq_false_of_forbidden hcf)).mp hc
    rw [hforb c this] at hcf
    cases hcf
  have h3 : ¬ hasDollarExpansion (normalizeWhitespace s).data = true := by
    rw [hN, hasDollar_trim, hasDollar_collapseGo, hasDollar_trim, hdollar]
    simp
  have h4 : ¬ hasChainSeq (normalizeWhitespace s).data = true := by
    intro ha
    obtain ⟨c, hc, hcf⟩ := chain_mem_forbidden ha
    exact h2 (List.any_eq_true.mpr ⟨c, hc, hcf⟩)
  have h5 : ¬ ((normalizeWhitespace s).data.count '\'' % 2 ≠ 0 ∨
      (normalizeWhitespace s).data.count '"' % 2 ≠ 0) := by
    rw [hN, count_core_of_nonspace (by decide) s.data,
      count_core_of_nonspace (by decide) s.data, hq1, hq2]
    simp
  have hft : firstTok (normalizeWhitespace s).data = some (firstTokList s.data) := by
    unfold firstTok
    rw [hTok]
    have : (firstTokList s.data).isEmpty = false := by
      cases he : (firstTokList s.data).isEmpty
      · rfl
      · exact absurd (List.isEmpty_iff.mp he) hTokNe
    simp [this]
  have ha : ¬ (!(allowedExecutables.contains (exeBasename (firstTokList s.data)))) = true := by
    rw [hexe]
    simp
  have hb : ¬ (!(!(firstTokList s.data).isEmpty && (firstTokList s.data).all isExeChar)) = true := by
    have hie : (firstTokList s.data).isEmpty = false := by
      cases he : (firstTokList s.data).isEmpty
      · rfl
      · exact absurd (List.isEmpty_iff.mp he) hTokNe
    rw [hie, hchars]
    simp
  refine ⟨?_, by rw [hN, filter_nonspace_core], by rw [hN]; exact wsNormalForm_core _⟩
  simp only [validateCliCommand]
  rw [if_neg h0, if_neg h1, if_neg h2, if_neg h3, if_neg h4, if_neg h5, hft]
  dsimp only
  rw [if_neg ha, if_neg hb]

/-- Witness for C7 at a concrete safe command with a tab, balanced quotes
and extra spaces. -/
theorem validateCliCommand_accepts_safe_witness :
    validateCliCommand "claude\t --project  'my proj'" =
      ⟨true, some (normalizeWhitespace "claude\t --project  'my proj'"), none⟩ ∧
    (normalizeWhitespace "claude\t --project  'my proj'").data.filter
        (fun c => !jsSpace c) =
      "claude\t --project  'my proj'".data.filter (fun c => !jsSpace c) ∧
    wsNormalForm (normalizeWhitespace "claude\t --project  'my proj'").data :=
  validateCliCommand_accepts_safe _ (by decide) (by decide) (by decide)
    (by decide) (by decide) (by decide) (by decide)

/-! ## The consensus synthesizer (`src/orchestrator/synthesizer.ts`)

Strings are sequences of code points; JS case-insensitive matching of the
ASCII-only patterns below and `toLowerCase` keys are modelled by ASCII
lowering (code points outside `A`–`Z` are unaffected by these patterns). -/

/-- The settlement of a promise: fulfilled with a value, or rejected with
a cause (rendered as a string). -/
inductive Outcome (α : Type) where
  | fulfilled (v : α)
  | rejected (reason : String)
  deriving Repr, DecidableEq

structure Council3 where
  codex : String
  claude : String
  gemini : String
  deriving Repr, DecidableEq

/-- `SynthesisInput` from `src/orchestrator/synthesizer.ts`. -/
structure SynthesisInput where
  mode : String
  rubric : String
  outputStyle : String
  responseContract : String
  userText : String
  council : Council3
  deriving Repr, DecidableEq

/-- ASCII lowering of one character. -/
def asciiLower (c : Char) : Char :=
  if 65 ≤ c.toNat ∧ c.toNat ≤ 90 then Char.ofNat (c.toNat + 32) else c

/-- The imperative-verb alternatives of the `looksActionable` start
pattern (already lowercase). -/
def actionVerbs : List (List Char) :=
  ["run".data, "open".data, "set".data, "add".data, "remove".data,
   "update".data, "create".data, "install".data, "verify".data,
   "check".data, "use".data, "ensure".data, "then".data, "next".data,
   "finally".data, "1)".data, "2)".data, "3)".data]

/-- Does one of the verb alternatives match here (as a prefix — the
pattern has no trailing boundary)? -/
def verbPre (low : List Char) : Bool :=
  actionVerbs.any (fun v => v.isPrefixOf low)

/-- The `starts` test: an optional bullet marker (`-` or `*` followed by
at least one whitespace) and then a verb alternative, case-insensitively,
anchored at the start of the line. -/
def startsActionable (l : List Char) : Bool :=
  let low := l.map asciiLower
  verbPre low ||
  (match low with
   | c :: rest =>
     (c = '-' || c = '*') &&
     (match rest with
      | d :: _ => jsSpace d
      | [] => false) &&
     verbPre (rest.dropWhile jsSpace)
   | [] => false)

/-- The path/tool alternatives of the `containsPath` pattern that have no
trailing boundary (already lowercase). -/
def pathPats : List (List Char) :=
  ["src/".data, "package.json".data, "tsconfig.json".data,
   "settings.json".data, ".vscode".data, "wsl.exe".data]

/-- Does one of the path alternatives match at this position (the `bash`
alternative carries a trailing word boundary)? -/
def matchesPathAt (l : List Char) : Bool :=
  pathPats.any (fun p => p.isPrefixOf l) ||
  ("bash".data.isPrefixOf l &&
    (match l.drop 4 with
     | [] => true
     | c :: _ => !isWordChar c))

/-- Scan for a path alternative preceded by a word boundary, tracking the
wordness of the previous character (a line start counts as non-word). -/
def containsPathGo : Bool → List Char → Bool
  | _, [] => false
  | prevWord, c :: rest =>
    ((prevWord != isWordChar c) && matchesPathAt (c :: rest)) ||
    containsPathGo (isWordChar c) rest

/-- The `containsPath` test of `looksActionable`. -/
def containsPath (l : List Char) : Bool :=
  containsPathGo false (l.map asciiLower)

/-- `looksActionable` from `src/orchestrator/synthesizer.ts`. -/
def looksActionable (l : List Char) : Bool :=
  startsActionable l || containsPath l

/-- JS `split(/\r?\n/)`. -/
def splitLinesJs : List Char → List (List Char)
  | [] => [[]]
  | '\r' :: '\n' :: rest => [] :: splitLinesJs rest
  | '\n' :: rest => [] :: splitLinesJs rest
  | c :: rest =>
    match splitLinesJs rest with
    | [] => [[c]]
    | l :: ls => (c :: l) :: ls

/-- The line preparation of `mergeHeuristically`: concatenate the three
member texts with newlines, split into lines, trim each, drop blanks. -/
def councilLines (c : Council3) : List (List Char) :=
  ((splitLinesJs (c.codex ++ "\n" ++ c.claude ++ "\n" ++ c.gemini).data).map
    trimList).filter (fun l => !l.isEmpty)

/-- The collection loop of `mergeHeuristically`: push actionable lines,
break as soon as 18 have been collected. -/
def collectGo : Nat → List (List Char) → List (List Char)
  | _, [] => []
  | n, l :: rest =>
    let pushed := looksActionable l
    let n' := if pushed then n + 1 else n
    let hd := if pushed then [l] else []
    if 18 ≤ n' then hd else hd ++ collectGo n' rest

/-- The dedupe key: `a.toLowerCase()`. -/
def keyOf (l : List Char) : List Char := l.map asciiLower

/-- `dedupe` from `src/orchestrator/synthesizer.ts`: keep the first
occurrence of each case-insensitive key, preserving order. -/
def dedupeGo (seen : List (List Char)) : List (List Char) → List (List Char)
  | [] => []
  | a :: rest =>
    if seen.contains (keyOf a) then dedupeGo seen rest
    else a :: dedupeGo (keyOf a :: seen) rest

/-- The actionable lines collected by `mergeHeuristically`. -/
def actionableOf (input : SynthesisInput) : List (List Char) :=
  collectGo 0 (councilLines input.council)

/-- The bullet list rendered by `mergeHeuristically`: deduplicated,
capped at 12. -/
def bulletListOf (input : SynthesisInput) : List (List Char) :=
  (dedupeGo [] (actionableOf input)).take 12

/-- `responseContract.split('\n')[0]`. -/
def firstLineOf (s : String) : String :=
  ⟨(splitOnCh '\n' s.data).headD []⟩

/-- Rendering of the bullet list (or the fallback bullet). -/
def renderBullets (unique : List (List Char)) : String :=
  if unique.isEmpty then "- Provide more context/logs so the council can act."
  else String.intercalate "\n" (unique.map (fun b => "- " ++ String.mk b))

/-- `mergeHeuristically` from `src/orchestrator/synthesizer.ts`. -/
def mergeHeuristically (input : SynthesisInput) : String :=
  "## Result\n" ++ input.outputStyle ++ "\n\n### Recommended next steps\n" ++
  renderBullets (bulletListOf input) ++
  "\n\n### Guardrails\n- " ++ input.rubric ++ "\n- " ++
  firstLineOf input.responseContract ++ "\n"

/-- `trimTo` from `src/orchestrator/synthesizer.ts`:
`s.slice(0, max - 1).trimEnd() + '...'` past the budget. -/
def trimTo (s : String) (max : Nat) : String :=
  if s.length ≤ max then s
  else ⟨rstrip jsSpace (s.data.take (max - 1))⟩ ++ "..."

/-- `formatCouncilNotes` from `src/orchestrator/synthesizer.ts`. -/
def formatCouncilNotes (c : Council3) : String :=
  String.intercalate "\n\n"
    ([("Codex", c.codex), ("Claude", c.claude), ("Gemini", c.gemini)].map
      (fun p => "--- " ++ p.1 ++ " ---\n" ++ trimTo p.2 1800))

/-- `ConsensusSynthesizer.synthesize`: heuristic merge plus the trimmed
council notes. -/
def synthesize (input : SynthesisInput) : String :=
  mergeHeuristically input ++ "\n\n## Council Notes (trimmed)\n" ++
    formatCouncilNotes input.council

/-- `ConsensusSynthesizer.synthesizeWithLlm`, as a function of how the
generation promise settles: wrap a fulfilled synthesis under a header, or
fall back to the heuristic synthesis entirely. -/
def synthesizeWithLlm (input : SynthesisInput) (llmResult : Outcome String) :
    String :=
  match llmResult with
  | .fulfilled synthesis =>
    "## Synthesized Result\n" ++ synthesis ++ "\n\n## Council Notes (trimmed)\n" ++
      formatCouncilNotes input.council
  | .rejected _ => synthesize input

example : looksActionable "run the tests".data = true := by decide
example : looksActionable "- Run npm ci".data = true := by decide
example : looksActionable "*  INSTALL it".data = true := by decide
example : looksActionable "-run x".data = false := by decide
example : looksActionable "see src/index.ts".data = true := by decide
example : looksActionable "hello world".data = false := by decide
example : looksActionable "a.vscode".data = true := by decide
example : looksActionable ".vscode".data = false := by decide
example : looksActionable "bash".data = true := by decide
example : looksActionable "bashful".data = false := by decide
example : looksActionable "runway".data = true := by decide
example : trimTo "abc" 1800 = "abc" := by decide
example : firstLineOf "a\nb" = "a" := by decide

/-! ### Claim C8 -/

theorem filter_eq_nil_of {α : Type} (p : α → Bool) (l : List α)
    (h : ∀ a ∈ l, p a = false) : l.filter p = [] := by
  induction l with
  | nil => rfl
  | cons a rest ih =>
    rw [List.filter_cons, h a (List.mem_cons_self a rest)]
    exact ih fun b hb => h b (List.mem_cons_of_mem a hb)

theorem collectGo_eq (lines : List (List Char)) :
    ∀ n, n < 18 →
      collectGo n lines = (lines.filter looksActionable).take (18 - n) := by
  induction lines with
  | nil => intro n _; simp [collectGo]
  | cons l rest ih =>
    intro n hn
    by_cases hl : looksActionable l = true
    · by_cases hfull : 18 ≤ n + 1
      · have hn17 : n = 17 := by omega
        subst hn17
        rw [collectGo]
        simp only [hl, if_pos rfl, if_true]
        rw [List.filter_cons, hl]
        simp
      · rw [collectGo]
        simp only [hl, if_true]
        rw [if_neg hfull, List.filter_cons, hl]
        have h18 : 18 - n = (18 - (n + 1)) + 1 := by omega
        simp only [if_true, h18, List.take_succ_cons]
        rw [ih (n + 1) (by omega)]
        rfl
    · have hl' : looksActionable l = false := by
        cases hb : looksActionable l
        · rfl
        · exact absurd hb hl
      rw [collectGo]
      simp only [hl', if_false, Bool.false_eq_true]
      rw [if_neg (by omega : ¬ 18 ≤ n), List.filter_cons, hl']
      simpa using ih n hn

theorem dedupeGo_key_not_seen :
    ∀ (l : List (List Char)) (seen : List (List Char)) (a : List Char),
      a ∈ dedupeGo seen l → keyOf a ∉ seen := by
  intro l
  induction l with
  | nil => intro seen a ha; cases ha
  | cons x rest ih =>
    intro seen a ha
    rw [dedupeGo] at ha
    by_cases hc : seen.contains (keyOf x) = true
    · rw [if_pos hc] at ha
      exact ih seen a ha
    · rw [if_neg hc] at ha
      rcases List.mem_cons.mp ha with h | h
      · subst h
        intro hmem
        exact hc (List.elem_iff.mpr hmem)
      · intro hmem
        exact ih (keyOf x :: seen) a h (List.mem_cons_of_mem _ hmem)

theorem dedupeGo_filter_key :
    ∀ (l : List (List Char)) (seen : List (List Char)) (k : List Char),
      k ∉ seen →
      (dedupeGo seen l).filter (fun a => keyOf a == k) =
        (l.filter (fun a => keyOf a == k)).take 1 := by
  intro l
  induction l with
  | nil => intro seen k _; rfl
  | cons x rest ih =>
    intro seen k hk
    by_cases hkey : keyOf x = k
    · have hc : ¬ seen.contains (keyOf x) = true := by
        intro hc
        exact hk (hkey ▸ List.elem_iff.mp hc)
      rw [dedupeGo, if_neg hc, List.filter_cons]
      have hbeq : (keyOf x == k) = true := beq_iff_eq.mpr hkey
      rw [hbeq]
      simp only [if_true]
      have hnil : (dedupeGo (keyOf x :: seen) rest).filter
          (fun a => keyOf a == k) = [] := by
        apply filter_eq_nil_of
        intro a ha
        have := dedupeGo_key_not_seen rest (keyOf x :: seen) a ha
        have hne : keyOf a ≠ k := by
          intro he
          exact this (by rw [he, ← hkey]; exact List.mem_cons_self _ _)
        simp [hne]
      rw [hnil, List.filter_cons, hbeq]
      simp
    · have hbeq : (keyOf x == k) = false := by
        simp [hkey]
      by_cases hc : seen.contains (keyOf x) = true
      · rw [dedupeGo, if_pos hc, List.filter_cons, hbeq]
        simp only [Bool.false_eq_true, if_false]
        exact ih seen k hk
      · rw [dedupeGo, if_neg hc, List.filter_cons, List.filter_cons, hbeq]
        simp only [Bool.false_eq_true, if_false]
        refine ih (keyOf x :: seen) k ?_
        intro hmem
        rcases List.mem_cons.mp hmem with h | h
        · exact hkey h.symm
        · exact hk h

theorem dedupeGo_sublist :
    ∀ (l : List (List Char)) (seen : List (List Char)),
      (dedupeGo seen l).Sublist l := by
  intro l
  induction l with
  | nil => intro seen; exact List.Sublist.refl []
  | cons x rest ih =>
    intro seen
    rw [dedupeGo]
    by_cases hc : seen.contains (keyOf x) = true
    · rw [if_pos hc]
      exact (ih seen).cons x
    · rw [if_neg hc]
      exact (ih (keyOf x :: seen)).cons₂ x

/-- The concrete input of the C8 counterexample: twelve distinct
actionable lines followed by a case-variant pair. -/
def c8Input : SynthesisInput :=
  { mode := "plan", rubric := "r", outputStyle := "o",
    responseContract := "rc", userText := "u",
    council :=
      { codex := "add a1\nadd a2\nadd a3\nadd a4\nadd a5\nadd a6\nadd a7\nadd a8\nadd a9\nadd b1\nadd b2\nadd b3\nADD X\nadd x",
        claude := "", gemini := "" } }

/-- **C8 counterexample.**  `ADD X` and `add x` are both actionable
collected lines of `c8Input` differing only by case, yet *neither* occurs
in the rendered bullet list: twelve distinct earlier bullets fill the cap,
so "exactly one of them appears in the bullet list" fails as stated. -/
theorem c8_cap_drops_case_pair :
    ("ADD X".data ∈ actionableOf c8Input ∧ "add x".data ∈ actionableOf c8Input ∧
      keyOf "ADD X".data = keyOf "add x".data ∧ "ADD X".data ≠ "add x".data) ∧
    ¬ "ADD X".data ∈ bulletListOf c8Input ∧
    ¬ "add x".data ∈ bulletListOf c8Input := by decide

/-- **C8 (amended).**  In the heuristic strategy: actionable lines are
collected in encounter order stopping at 18; deduplication keeps, for each
case-insensitive key, exactly the first-occurring line, preserving order
(the dedup result is a sublist of the collected lines, and its restriction
to any key is the first collected line of that key); the bullet list is
the first 12 entries of the dedup result, hence has at most 12 entries; a
case-class appears in the bullet list only through its first occurrence,
and not at all when the cap cuts it. -/
theorem mergeHeuristically_collection_dedup_cap (input : SynthesisInput) :
    actionableOf input =
      ((councilLines input.council).filter looksActionable).take 18 ∧
    (dedupeGo [] (actionableOf input)).Sublist (actionableOf input) ∧
    (∀ k, (dedupeGo [] (actionableOf input)).filter (fun a => keyOf a == k) =
      ((actionableOf input).filter (fun a => keyOf a == k)).take 1) ∧
    bulletListOf input = (dedupeGo [] (actionableOf input)).take 12 ∧
    (bulletListOf input).length ≤ 12 ∧
    mergeHeuristically input =
      "## Result\n" ++ input.outputStyle ++ "\n\n### Recommended next steps\n" ++
      renderBullets (bulletListOf input) ++ "\n\n### Guardrails\n- " ++
      input.rubric ++ "\n- " ++ firstLineOf input.responseContract ++ "\n" := by
  refine ⟨collectGo_eq _ 0 (by omega), dedupeGo_sublist _ _,
    fun k => dedupeGo_filter_key _ [] k (by simp), rfl, ?_, rfl⟩
  unfold bulletListOf
  simp [List.length_take]

/-! ### Claim C9 -/

/-- **C9.**  The Council Notes section lists each member under its label
with the text passed through `trimTo _ 1800`; a text of length at most
1800 is passed through unchanged; a longer text is cut to a prefix of at
most 1799 characters (its trailing whitespace stripped) and marked with
an ellipsis. -/
theorem councilNotes_trim_budget (council : Council3) (s t : String)
    (h1 : s.length ≤ 1800) (h2 : 1800 < t.length) :
    formatCouncilNotes council =
      "--- Codex ---\n" ++ trimTo council.codex 1800 ++ "\n\n--- Claude ---\n" ++
      trimTo council.claude 1800 ++ "\n\n--- Gemini ---\n" ++
      trimTo council.gemini 1800 ∧
    trimTo s 1800 = s ∧
    trimTo t 1800 = String.mk (rstrip jsSpace (t.data.take 1799)) ++ "..." ∧
    (rstrip jsSpace (t.data.take 1799)).length ≤ 1799 ∧
    rstrip jsSpace (t.data.take 1799) <+: t.data := by
  refine ⟨?_, ?_, ?_, ?_, ?_⟩
  · have h : formatCouncilNotes council =
        (((("--- Codex ---\n" ++ trimTo council.codex 1800) ++ "\n\n") ++
          ("--- Claude ---\n" ++ trimTo council.claude 1800)) ++ "\n\n") ++
        ("--- Gemini ---\n" ++ trimTo council.gemini 1800) := rfl
    rw [h]
    apply String.ext
    simp [String.data_append]
  · unfold trimTo; rw [if_pos h1]
  · unfold trimTo; rw [if_neg (by omega)]
  · unfold rstrip
    calc ((t.data.take 1799).reverse.dropWhile jsSpace).reverse.length
        = ((t.data.take 1799).reverse.dropWhile jsSpace).length :=
          List.length_reverse _
      _ ≤ (t.data.take 1799).reverse.length :=
          (List.dropWhile_sublist _).length_le
      _ = (t.data.take 1799).length := List.length_reverse _
      _ ≤ 1799 := List.length_take_le _ _
  · exact List.IsPrefix.trans ⟨_, rstrip_decomp jsSpace _⟩ (List.take_prefix _ _)

/-- Witness for C9 at a short string and a 1801-character string. -/
theorem councilNotes_trim_budget_witness :
    (("short" : String).length ≤ 1800 ∧
      1800 < (String.mk (List.replicate 1801 'x')).length) ∧
    (formatCouncilNotes ⟨"a", "b", "c"⟩ =
      "--- Codex ---\n" ++ trimTo "a" 1800 ++ "\n\n--- Claude ---\n" ++
      trimTo "b" 1800 ++ "\n\n--- Gemini ---\n" ++ trimTo "c" 1800 ∧
    trimTo "short" 1800 = "short" ∧
    trimTo (String.mk (List.replicate 1801 'x')) 1800 =
      String.mk (rstrip jsSpace
        ((String.mk (List.replicate 1801 'x')).data.take 1799)) ++ "..." ∧
    (rstrip jsSpace
      ((String.mk (List.replicate 1801 'x')).data.take 1799)).length ≤ 1799 ∧
    rstrip jsSpace ((String.mk (List.replicate 1801 'x')).data.take 1799) <+:
      (String.mk (List.replicate 1801 'x')).data) :=
  have hs : (("short" : String)).length ≤ 1800 := by decide
  have ht : 1800 < (String.mk (List.replicate 1801 'x')).length := by
    have h : (String.mk (List.replicate 1801 'x')).length = 1801 := by
      show (List.replicate 1801 'x').length = 1801
      exact List.length_replicate _ _
    omega
  ⟨⟨hs, ht⟩, councilNotes_trim_budget ⟨"a", "b", "c"⟩ "short" _ hs ht⟩

/-! ## The member runner `runWsl` (`src/cli/wslCliRunner.ts`)

The run concludes through exactly three events — process `close`, process
`error`, or the timer at `timeoutMs` — all guarded by the single `resolved`
latch.  The single-threaded event loop delivers the events in some order;
we model an arbitrary delivery order as a list of events folded through
the latch. -/

/-- The three ways a `runWsl` run can conclude. -/
inductive WslEvent where
  | close (code : Option Nat)
  | errorEv (msg : String)
  | timeoutEv
  deriving Repr, DecidableEq

/-- The value resolved by the `close` handler: accumulated stdout with a
`[stderr]`-labelled block when stderr is non-empty, trimmed; a
`(no output) exit=<code>` placeholder when that is empty. -/
def closeValue (member : String) (stdout stderr : String)
    (code : Option Nat) : String :=
  let out := jsTrim (stdout ++ (if stderr ≠ "" then "\n[stderr]\n" ++ stderr else ""))
  if out ≠ "" then out
  else "[" ++ member ++ "] (no output) exit=" ++
    (match code with | some n => toString n | none => "unknown")

/-- How a single event settles the run. -/
def settleEvent (member : String) (timeoutMs : Nat) (stdout stderr : String) :
    WslEvent → Outcome String
  | .close code => .fulfilled (closeValue member stdout stderr code)
  | .errorEv msg => .rejected msg
  | .timeoutEv =>
    .rejected (member ++ " timed out after " ++ toString timeoutMs ++ "ms")

/-- The `resolved` latch: a handler is a no-op once the run has settled,
otherwise it settles the run with its own event. -/
def stepLatch (member : String) (timeoutMs : Nat) (stdout stderr : String)
    (st : Option (Outcome String)) (e : WslEvent) : Option (Outcome String) :=
  match st with
  | some r => some r
  | none => some (settleEvent member timeoutMs stdout stderr e)

/-- The settlement of the run after a sequence of events fires. -/
def runWslSettle (member : String) (timeoutMs : Nat) (stdout stderr : String)
    (events : List WslEvent) : Option (Outcome String) :=
  events.foldl (stepLatch member timeoutMs stdout stderr) none

theorem foldl_stepLatch_settled (member : String) (timeoutMs : Nat)
    (stdout stderr : String) :
    ∀ (es : List WslEvent) (r : Outcome String),
      es.foldl (stepLatch member timeoutMs stdout stderr) (some r) = some r := by
  intro es
  induction es with
  | nil => intro r; rfl
  | cons e rest ih =>
    intro r
    rw [List.foldl_cons]
    exact ih r

/-- **C2.**  Whatever the delivery order of `close`, `error` and the
timer, the run settles exactly once, with the settlement of the first
event to fire; every handler is a no-op once the latch is set.  When
`close` fires first the promise fulfils with the accumulated output; when
the timer fires first it rejects with a message naming the member and the
timeout budget; `error` first rejects with that error. -/
theorem runWsl_settles_once (member : String) (timeoutMs : Nat)
    (stdout stderr : String) (e : WslEvent) (rest : List WslEvent) :
    runWslSettle member timeoutMs stdout stderr (e :: rest) =
      some (settleEvent member timeoutMs stdout stderr e) ∧
    (∀ r e2, stepLatch member timeoutMs stdout stderr (some r) e2 = some r) ∧
    (∀ code rest2, runWslSettle member timeoutMs stdout stderr
        (.close code :: rest2) =
      some (.fulfilled (closeValue member stdout stderr code))) ∧
    (∀ rest2, runWslSettle member timeoutMs stdout stderr
        (.timeoutEv :: rest2) =
      some (.rejected (member ++ " timed out after " ++ toString timeoutMs ++ "ms"))) ∧
    (∀ msg rest2, runWslSettle member timeoutMs stdout stderr
        (.errorEv msg :: rest2) = some (.rejected msg)) := by
  have hfirst : ∀ (e1 : WslEvent) (r2 : List WslEvent),
      runWslSettle member timeoutMs stdout stderr (e1 :: r2) =
        some (settleEvent member timeoutMs stdout stderr e1) := by
    intro e1 r2
    unfold runWslSettle
    rw [List.foldl_cons]
    exact foldl_stepLatch_settled member timeoutMs stdout stderr r2 _
  refine ⟨hfirst e rest, fun r e2 => rfl, ?_, ?_, ?_⟩
  · intro code rest2; exact hfirst (.close code) rest2
  · intro rest2; exact hfirst .timeoutEv rest2
  · intro msg rest2; exact hfirst (.errorEv msg) rest2

/-! ## Mode profiles (`src/orchestrator/modes.ts`) -/

structure CliRole where
  systemRole : String
  instruction : String
  deriving Repr, DecidableEq

structure CouncilRoles where
  codex : CliRole
  claude : CliRole
  gemini : CliRole
  deriving Repr, DecidableEq

structure SynthesisSpec where
  rubric : String
  outputStyle : String
  requiredSections : Option (List String)
  bannedContent : Option (List String)
  deriving Repr, DecidableEq

structure ModeProfile where
  name : String
  userFacingLabel : String
  councilGoal : String
  roles : CouncilRoles
  synthesis : SynthesisSpec
  deriving Repr, DecidableEq

def planProfile : ModeProfile :=
  { name := "plan", userFacingLabel := "Plan",
    councilGoal := "Produce a clear plan with risks, tradeoffs, and checkpoints.",
    roles :=
      { codex := ⟨"Senior software architect.",
          "Return a structured plan with milestones and tests."⟩,
        claude := ⟨"Critical reviewer.",
          "Challenge the plan; find missing requirements and risks."⟩,
        gemini := ⟨"VS Code UX/devex specialist.",
          "Make the plan implementable and smooth in VS Code."⟩ },
    synthesis :=
      { rubric := "Prefer specificity; resolve conflicts; state assumptions when needed.",
        outputStyle := "Deliver: 1) Plan, 2) Risks, 3) Next actions.",
        requiredSections := none, bannedContent := none } }

def refactorProfile : ModeProfile :=
  { name := "refactor", userFacingLabel := "Refactor",
    councilGoal := "Improve code with minimal behavior change; prioritize clarity and safety.",
    roles :=
      { codex := ⟨"Refactoring specialist.",
          "Propose small safe refactors with verification."⟩,
        claude := ⟨"Regression-avoidance reviewer.",
          "Flag regression risks and add tests/checks."⟩,
        gemini := ⟨"Extension best-practices guide.",
          "Ensure changes match VS Code patterns."⟩ },
    synthesis :=
      { rubric := "Refactor in small steps with validation after each step.",
        outputStyle := "Deliver: refactor steps + reasoning + verification checklist.",
        requiredSections := none, bannedContent := none } }

def debugProfile : ModeProfile :=
  { name := "debug", userFacingLabel := "Debug",
    councilGoal := "Diagnose issues, propose root causes, and provide a reliable fix path.",
    roles :=
      { codex := ⟨"Debugger.",
          "Use logs/repro; propose likely causes and concrete fixes."⟩,
        claude := ⟨"Adversarial tester.",
          "List failure modes, races, WSL pitfalls."⟩,
        gemini := ⟨"Observability engineer.",
          "Recommend diagnostics and better errors."⟩ },
    synthesis :=
      { rubric := "Prefer reproducibility and step-by-step confirmation.",
        outputStyle := "Deliver: suspected causes, how to confirm, fix steps.",
        requiredSections := none, bannedContent := none } }

def actProfile : ModeProfile :=
  { name := "act", userFacingLabel := "Act",
    councilGoal := "Produce actionable outputs: code, commands, and verification steps.",
    roles :=
      { codex := ⟨"Builder.",
          "Provide runnable code with file paths and commands."⟩,
        claude := ⟨"Security/correctness reviewer.",
          "Double-check safety, correctness, and edge cases."⟩,
        gemini := ⟨"Integration engineer.",
          "Ensure commands work in WSL/VS Code; note quirks."⟩ },
    synthesis :=
      { rubric := "Output must be directly usable; prefer precise paths/commands.",
        outputStyle := "Deliver: implementation steps + code snippets + verification.",
        requiredSections := none, bannedContent := none } }

/-- `MODE_PROFILES` as a lookup on the mode key. -/
def MODE_PROFILES (mode : String) : Option ModeProfile :=
  if mode = "plan" then some planProfile
  else if mode = "refactor" then some refactorProfile
  else if mode = "debug" then some debugProfile
  else if mode = "act" then some actProfile
  else none

/-- `MODE_PROFILES[mode] ?? MODE_PROFILES.plan`. -/
def profileFor (mode : String) : ModeProfile :=
  (MODE_PROFILES mode).getD planProfile

/-! ## The prompt builder (`NanoOrchestrator`) -/

/-- The fixed response contract of `NanoOrchestrator.buildResponseContract`. -/
def nanoResponseContract : String :=
  "RESPONSE CONTRACT:\n- Be concrete and self-contained.\n- If giving code, include full blocks + file paths.\n- If uncertain, state assumptions + safe default.\n- Do not invent unknown commands."

/-- JS `toUpperCase` on the (ASCII) mode names. -/
def toUpperStr (s : String) : String := ⟨s.data.map Char.toUpper⟩

/-- `NanoOrchestrator.buildCouncilPrompt` (heuristic path): returns the
council prompt and the response contract. -/
def buildCouncilPrompt (mode councilGoal userText memoryContext fileContext :
    String) : String × String :=
  ("You are one member of a 3-CLI council (Codex, Claude Code, Gemini).\nMODE: " ++
      toUpperStr mode ++ "\nGOAL: " ++ councilGoal ++ "\n\nUSER:\n" ++ userText ++
      "\n\nPROJECT MEMORY:\n" ++ memoryContext ++ "\n\nWORKSPACE HINTS:\n" ++
      fileContext ++ "\n\n" ++ nanoResponseContract ++
      "\nProvide your best contribution for this mode.",
   nanoResponseContract)

/-- `NanoOrchestrator.buildCouncilPromptWithLlm` as a function of how the
pre-pass generation settles: its own `try/catch` replaces a rejected
pre-pass by the original user text, so this builder itself never throws. -/
def buildCouncilPromptWithLlm (mode councilGoal userText memoryContext
    fileContext : String) (prePass : Outcome String) : String × String :=
  let optimizedTask := match prePass with
    | .fulfilled v => v
    | .rejected _ => userText
  ("You are one member of a 3-CLI council (Codex, Claude Code, Gemini).\nMODE: " ++
      toUpperStr mode ++ "\nGOAL: " ++ councilGoal ++ "\n\nTASK:\n" ++
      optimizedTask ++ "\n\nPROJECT MEMORY:\n" ++ memoryContext ++
      "\n\nWORKSPACE HINTS:\n" ++ fileContext ++ "\n\n" ++ nanoResponseContract ++
      "\nProvide your best contribution for this mode.",
   nanoResponseContract)

/-- `CouncilOrchestrator.buildResponseContractString`. -/
def buildResponseContractString (profile : ModeProfile) : String :=
  let required := match profile.synthesis.requiredSections with
    | some l =>
      if l.isEmpty then "No required sections."
      else "Required sections (in order):\n- " ++ String.intercalate "\n- " l
    | none => "No required sections."
  let banned := match profile.synthesis.bannedContent with
    | some l =>
      if l.isEmpty then "No explicit banned content."
      else "Banned content:\n- " ++ String.intercalate "\n- " l
    | none => "No explicit banned content."
  let style :=
    if jsTrim profile.synthesis.outputStyle ≠ "" then
      "Style: " ++ jsTrim profile.synthesis.outputStyle
    else "Style: (unspecified)"
  String.intercalate "\n\n"
    ["RESPONSE CONTRACT", required, banned, style,
     "Keep answers concrete: file paths, commands, and step-by-step instructions when relevant."]

/-! ## The remote-service synthesis strategy -/

/-- The body of an Ollama `/api/generate` response. -/
structure OllamaResponse where
  response : Option String
  error : Option String
  deriving Repr, DecidableEq

/-- Modelled from the spec: the class `LocalModelSynthesizer`
(`synthesizeWithOllama`) is not among the provided sources — only its
callers (`CouncilOrchestrator.runCouncil`) and its tests are.  Per spec
§4.5 and the test expectations: a transport/HTTP failure raises; a
service-reported `error` field raises `Ollama error: <e>`; a missing or
empty (after trimming) response body raises
`Ollama returned an empty response`; otherwise the trimmed response text
is returned. -/
def synthesizeWithOllama (http : Except String OllamaResponse) :
    Except String String :=
  match http with
  | .error e => .error e
  | .ok r =>
    match r.error with
    | some e => .error ("Ollama error: " ++ e)
    | none =>
      let t := jsTrim (r.response.getD "")
      if t = "" then .error "Ollama returned an empty response"
      else .ok t

/-! ## The council coordinator (`CouncilOrchestrator.runCouncil`)

The coordinator is embedded as a pure function over an environment record
providing, for every external collaborator call the coordinator makes, the
value with which that call settles: the settlement of each member runner
promise, of the embedded-LLM generations, of the remote synthesis HTTP
call, and of the memory write.  Context reads (`buildContextForPrompt`,
`captureWorkspaceSnapshotHints`) are modelled by the strings they return.
The returned `Outcome` is the settlement of the `runCouncil` promise
itself. -/

structure CouncilRunOptions where
  architect : Option Bool := none
  memory : Option Bool := none
  consensus : Option Bool := none
  fast : Option Bool := none
  deriving Repr, DecidableEq

structure CouncilEnv where
  workspaceBound : Bool
  userText : String
  mode : String
  opts : CouncilRunOptions
  memoryContext : String
  fileContext : String
  engine : String
  embeddedAvailable : Bool
  runMember : String → Outcome String
  llmPrePass : Outcome String
  llmSynthesis : Outcome String
  ollamaHttp : Except String OllamaResponse
  memoryWrite : Outcome Unit

/-- `opts.architect ?? true`. -/
def CouncilEnv.useArchitect (env : CouncilEnv) : Bool :=
  env.opts.architect.getD true

/-- `opts.memory ?? true`. -/
def CouncilEnv.useMemory (env : CouncilEnv) : Bool :=
  env.opts.memory.getD true

/-- `opts.consensus ?? true`. -/
def CouncilEnv.requireConsensus (env : CouncilEnv) : Bool :=
  env.opts.consensus.getD true

/-- `opts.fast ?? false`. -/
def CouncilEnv.fast (env : CouncilEnv) : Bool :=
  env.opts.fast.getD false

/-- The prompt-building phase of `runCouncil`: the architect pre-pass when
requested (LLM-backed when the embedded engine is selected and available —
that path handles its own failure, so the surrounding `catch` never
fires), otherwise the fixed template with
`buildResponseContractString`. -/
def promptPhase (env : CouncilEnv) (profile : ModeProfile) : String × String :=
  let memoryContext := if env.useMemory then env.memoryContext else ""
  let fileContext := if env.useMemory then env.fileContext else ""
  if env.useArchitect then
    if env.engine = "embedded" ∧ env.embeddedAvailable = true then
      buildCouncilPromptWithLlm profile.name profile.councilGoal env.userText
        memoryContext fileContext env.llmPrePass
    else
      buildCouncilPrompt profile.name profile.councilGoal env.userText
        memoryContext fileContext
  else
    (profile.councilGoal ++ "\n\nUSER:\n" ++ env.userText ++
      "\n\nRespond with the best possible answer for this mode.",
     buildResponseContractString profile)

/-- The fan-out: the two mandatory members, plus `gemini` unless fast. -/
def scheduledMembers (fast : Bool) : List String :=
  ["codex", "claude"] ++ (if fast then [] else ["gemini"])

/-- The `jobs` array: one member-runner settlement per scheduled member. -/
def jobsOf (env : CouncilEnv) : List (Outcome String) :=
  (scheduledMembers env.fast).map env.runMember

/-- The `Promise.allSettled` slot mapping: a fulfilled run yields its
value, a rejected run yields `ERROR: <cause>`. -/
def settledText : Outcome String → String
  | .fulfilled v => v
  | .rejected reason => "ERROR: " ++ reason

/-- The three member slots, addressed by index in the settled `jobs`
array; index 2 is absent in fast mode and maps to the skipped
placeholder (`results[2]` is `undefined`; indices 0 and 1 always exist). -/
def memberSlots (env : CouncilEnv) : Council3 :=
  let jobs := jobsOf env
  { codex := match jobs[0]? with | some o => settledText o | none => "[skipped]",
    claude := match jobs[1]? with | some o => settledText o | none => "[skipped]",
    gemini := match jobs[2]? with | some o => settledText o | none => "[skipped]" }

/-- The raw-outputs rendering returned when `consensus` is off. -/
def rawRender (profile : ModeProfile) (slots : Council3) : String :=
  "Unified AI Council (raw outputs) â€” mode: " ++ profile.name ++
  "\n\n---\n\n### Codex\n" ++ slots.codex ++
  "\n\n---\n\n### Claude Code\n" ++ slots.claude ++
  "\n\n---\n\n### Gemini\n" ++ slots.gemini

/-- The `SynthesisInput` assembled by `runCouncil`. -/
def synthesisInputOf (env : CouncilEnv) (profile : ModeProfile)
    (responseContract : String) : SynthesisInput :=
  { mode := profile.name, rubric := profile.synthesis.rubric,
    outputStyle := profile.synthesis.outputStyle,
    responseContract := responseContract, userText := env.userText,
    council := memberSlots env }

/-- The engine dispatch of the synthesis step, including the per-engine
fallbacks to the heuristic strategy. -/
def synthesisStep (env : CouncilEnv) (input : SynthesisInput) : String :=
  if env.engine = "embedded" ∧ env.embeddedAvailable = true then
    synthesizeWithLlm input env.llmSynthesis
  else if env.engine = "ollama" then
    match synthesizeWithOllama env.ollamaHttp with
    | .ok v => v
    | .error _ => synthesize input
  else
    synthesize input

/-- The body of `runCouncil` for a resolved profile.  The first component
of `promptPhase` is the council prompt handed to each member runner (whose
settlements the environment provides); the second is the response
contract fed to synthesis.  The memory write is awaited without a
`try/catch`, so its rejection rejects the whole call. -/
def runCouncilWithProfile (env : CouncilEnv) (profile : ModeProfile) :
    Outcome String :=
  if env.workspaceBound = false then
    .fulfilled "Open a workspace folder first."
  else
    let pr := promptPhase env profile
    let slots := memberSlots env
    if env.requireConsensus = false then
      .fulfilled (rawRender profile slots)
    else
      let input := synthesisInputOf env profile pr.2
      let final := synthesisStep env input
      if env.useMemory then
        match env.memoryWrite with
        | .fulfilled _ => .fulfilled final
        | .rejected r => .rejected r
      else .fulfilled final

/-- `CouncilOrchestrator.runCouncil`: resolve the profile
(`MODE_PROFILES[mode] ?? MODE_PROFILES.plan`) and run. -/
def runCouncil (env : CouncilEnv) : Outcome String :=
  runCouncilWithProfile env (profileFor env.mode)

/-- A fully concrete environment used by the witnesses. -/
def sampleEnv : CouncilEnv :=
  { workspaceBound := true, userText := "u", mode := "plan",
    opts := {}, memoryContext := "m", fileContext := "f",
    engine := "nano", embeddedAvailable := false,
    runMember := fun _ => .fulfilled "ok",
    llmPrePass := .rejected "off", llmSynthesis := .rejected "off",
    ollamaHttp := .error "off", memoryWrite := .fulfilled () }

/-! ### Shared facts about the coordinator -/

theorem append_ne_empty_of_left {a : String} (b : String) (ha : a.length ≠ 0) :
    a ++ b ≠ "" := by
  intro h
  have hl := congrArg String.length h
  rw [String.length_append] at hl
  have h0 : ("" : String).length = 0 := rfl
  rw [h0] at hl
  omega

/-- The C5 failing environment: memory on (default), the memory write
rejects. -/
def memFailEnv : CouncilEnv :=
  { sampleEnv with memoryWrite := .rejected "EACCES: permission denied" }

/-- **C5 (code bug).**  The memory write after synthesis is awaited
without a `try/catch`, so its rejection rejects the whole `runCouncil`
call instead of still returning the synthesized answer: evaluated at
`memFailEnv`, `runCouncil` rejects with the persistence error and fulfils
with nothing. -/
theorem memoryWriteFailure_rejects :
    runCouncil memFailEnv = .rejected "EACCES: permission denied" ∧
    ∀ f, runCouncil memFailEnv ≠ .fulfilled f := by
  have h : runCouncil memFailEnv = .rejected "EACCES: permission denied" := rfl
  refine ⟨h, ?_⟩
  intro f hf
  exact Outcome.noConfusion (h.symm.trans hf)

/-! ### Claim C6 -/

/-- **C6.**  With `options.fast = true` exactly two member runs are
scheduled — `codex` and `claude`; `gemini` is never handed to the runner —
and the `gemini` slot is the fixed `[skipped]` placeholder both in the
`SynthesisInput` and in the raw-outputs rendering. -/
theorem fastMode_two_jobs (env : CouncilEnv) (hf : env.opts.fast = some true) :
    scheduledMembers env.fast = ["codex", "claude"] ∧
    (jobsOf env).length = 2 ∧
    "gemini" ∉ scheduledMembers env.fast ∧
    jobsOf env = [env.runMember "codex", env.runMember "claude"] ∧
    (memberSlots env).gemini = "[skipped]" ∧
    (∀ profile rc, (synthesisInputOf env profile rc).council.gemini = "[skipped]") ∧
    (∀ profile, rawRender profile (memberSlots env) =
      "Unified AI Council (raw outputs) â€” mode: " ++ profile.name ++
      "\n\n---\n\n### Codex\n" ++ (memberSlots env).codex ++
      "\n\n---\n\n### Claude Code\n" ++ (memberSlots env).claude ++
      "\n\n---\n\n### Gemini\n" ++ "[skipped]") := by
  have hfast : env.fast = true := by simp [CouncilEnv.fast, hf]
  have hsched : scheduledMembers env.fast = ["codex", "claude"] := by
    simp [scheduledMembers, hfast]
  have hjobs : jobsOf env = [env.runMember "codex", env.runMember "claude"] := by
    simp [jobsOf, hsched]
  have hslots : (memberSlots env).gemini = "[skipped]" := by
    simp [memberSlots, hjobs]
  refine ⟨hsched, by rw [hjobs]; rfl, by rw [hsched]; decide, hjobs, hslots,
    fun _ _ => hslots, ?_⟩
  intro profile
  unfold rawRender
  rw [hslots]

/-- The C6 witness environment. -/
def fastEnv : CouncilEnv :=
  { sampleEnv with opts := { fast := some true } }

/-- Witness for C6. -/
theorem fastMode_two_jobs_witness :
    scheduledMembers fastEnv.fast = ["codex", "claude"] ∧
    (jobsOf fastEnv).length = 2 ∧
    "gemini" ∉ scheduledMembers fastEnv.fast ∧
    jobsOf fastEnv = [fastEnv.runMember "codex", fastEnv.runMember "claude"] ∧
    (memberSlots fastEnv).gemini = "[skipped]" ∧
    (∀ profile rc, (synthesisInputOf fastEnv profile rc).council.gemini = "[skipped]") ∧
    (∀ profile, rawRender profile (memberSlots fastEnv) =
      "Unified AI Council (raw outputs) â€” mode: " ++ profile.name ++
      "\n\n---\n\n### Codex\n" ++ (memberSlots fastEnv).codex ++
      "\n\n---\n\n### Claude Code\n" ++ (memberSlots fastEnv).claude ++
      "\n\n---\n\n### Gemini\n" ++ "[skipped]") :=
  fastMode_two_jobs fastEnv rfl

/-! ### Claim C10 -/

/-- **C10.**  A mode string that is none of `plan`, `refactor`, `debug`,
`act` resolves to the `plan` profile, and `runCouncil` behaves exactly as
with mode `plan` (the profile drives roles, goal and synthesis rubric;
the returned value coincides). -/
theorem unknownMode_behaves_as_plan (m : String)
    (hm : m ∉ (["plan", "refactor", "debug", "act"] : List String))
    (env : CouncilEnv) :
    profileFor m = planProfile ∧
    runCouncil { env with mode := m } = runCouncil { env with mode := "plan" } := by
  have h1 : m ≠ "plan" := fun h => hm (by rw [h]; exact List.mem_cons_self _ _)
  have h2 : m ≠ "refactor" := fun h => hm (by rw [h]; simp)
  have h3 : m ≠ "debug" := fun h => hm (by rw [h]; simp)
  have h4 : m ≠ "act" := fun h => hm (by rw [h]; simp)
  have hprof : profileFor m = planProfile := by
    unfold profileFor MODE_PROFILES
    rw [if_neg h1, if_neg h2, if_neg h3, if_neg h4]
    rfl
  refine ⟨hprof, ?_⟩
  show runCouncilWithProfile { env with mode := m } (profileFor m) =
    runCouncilWithProfile { env with mode := "plan" } (profileFor "plan")
  rw [hprof, show profileFor "plan" = planProfile from rfl]
  rfl

/-- Witness for C10 at the unknown mode string `"yolo"`. -/
theorem unknownMode_behaves_as_plan_witness :
    profileFor "yolo" = planProfile ∧
    runCouncil { sampleEnv with mode := "yolo" } =
      runCouncil { sampleEnv with mode := "plan" } :=
  unknownMode_behaves_as_plan "yolo" (by decide) sampleEnv

end UAC
